import Mathlib

/-!
Verification of the array-backed binary heap implemented in `heap.py`.

The heap stores its items in a dense, zero-indexed Python list and is
parameterized by a two-argument boolean comparator fixed at construction
time (`operator.le` for `HeapType.MIN`, `operator.ge` for `HeapType.MAX`,
or a caller-supplied predicate).

Shallow embedding conventions used throughout this file:
- Python values that may flow through the heap are modelled by `Option α`:
  `Option.none` is Python's `None` object and `some a` is any other value.
  This is needed to model the `child is None` test inside `_push_down`,
  which conflates its "no child" sentinel with a stored `None` element.
- The mutable list `self._items` is passed and returned explicitly; each
  Python method becomes a function from the old list to the new list
  (plus a return value where the method returns one).
- `raise TypeError(...)` is modelled by `Except HeapError`.
- Python's `items[i]` read is modelled by `getI`, which defaults to `none`
  out of bounds; every call site keeps the index in bounds, matching the
  fact that the Python code never raises `IndexError`.
- `math.floor(math.log(num_items, 2))` is modelled by the exact base-2
  integer logarithm `Nat.log2`.
-/

namespace Heap

/-- Read `items[i]`, Python-style (all call sites are in bounds). -/
def getI {α : Type} (items : List (Option α)) (i : Nat) : Option α :=
  items.getD i none

/-- The candidate child index chosen by the body of `_push_down`'s loop
when a left child exists (`heap.py` lines 94-102): the left child at
`2*i + 1`, replaced by the right child at `2*i + 2` exactly when the right
child exists and `comparator(items[right_i], child)` holds for the left
child value `child`. -/
def childIndex {α : Type} (cmp : Option α → Option α → Bool)
    (items : List (Option α)) (i : Nat) : Nat :=
  if 2 * i + 2 < items.length ∧ cmp (getI items (2 * i + 2)) (getI items (2 * i + 1)) = true
  then 2 * i + 2 else 2 * i + 1

/-- The `while i < size` loop of `Heap._push_down` (`heap.py` lines 93-110).
`item` is the local variable read once as `items[i]` before the loop; the
swap `items[i] = child; items[child_i] = item` keeps `item` at the current
index, so the loop carries it unchanged. `child is None` (line 103) holds
either when no left child exists (the sentinel initialisation survives) or
when the selected child's stored value is Python's `None`. -/
def pushDownLoop {α : Type} (cmp : Option α → Option α → Bool)
    (items : List (Option α)) (item : Option α) (i : Nat) : List (Option α) :=
  if i < items.length then
    if 2 * i + 1 < items.length then
      if (getI items (childIndex cmp items i)).isNone then items
      else if cmp (getI items (childIndex cmp items i)) item then
        pushDownLoop cmp
          ((items.set i (getI items (childIndex cmp items i))).set
            (childIndex cmp items i) item)
          item (childIndex cmp items i)
      else items
    else items
  else items
termination_by items.length - i
decreasing_by
  simp only [List.length_set]
  simp only [childIndex]
  split <;> omega

/-- `Heap._push_down(items, i)` (`heap.py` lines 82-110): read
`item = items[i]` and run the loop. -/
def pushDown {α : Type} (cmp : Option α → Option α → Bool)
    (items : List (Option α)) (i : Nat) : List (Option α) :=
  pushDownLoop cmp items (getI items i) i

/-- The starting index computed by `Heap.heapify` (`heap.py` lines 37-38):
`last_level = math.floor(math.log(num_items, 2)); item_index = 2 ** last_level - 1`. -/
def heapifyStart (n : Nat) : Nat :=
  2 ^ Nat.log2 n - 1

/-- The `while item_index >= 0` loop of `Heap.heapify` (`heap.py` lines
39-41): push down at `idx`, then at `idx - 1`, ..., then at `0`. -/
def heapifyLoop {α : Type} (cmp : Option α → Option α → Bool) :
    List (Option α) → Nat → List (Option α)
  | items, 0 => pushDown cmp items 0
  | items, idx + 1 => heapifyLoop cmp (pushDown cmp items (idx + 1)) idx

/-- `Heap.heapify(items)` (`heap.py` lines 31-41): lengths 0 and 1 return
immediately, otherwise push down every index from `heapifyStart` down to 0. -/
def heapify {α : Type} (cmp : Option α → Option α → Bool)
    (items : List (Option α)) : List (Option α) :=
  if items.length = 0 ∨ items.length = 1 then items
  else heapifyLoop cmp items (heapifyStart items.length)

/-- The two `TypeError`s raised by `heap.py` (lines 45 and 56). -/
inductive HeapError : Type where
  | emptyPop : HeapError
  | emptyPeek : HeapError
deriving DecidableEq

/-- `Heap.pop()` (`heap.py` lines 43-52): raise on an empty heap; otherwise
save `items[0]`, remove the last element (`items.pop()`), and if the heap
is still non-empty put the removed last element at index 0 and push it
down. Returns the saved root together with the new list. -/
def pop {α : Type} (cmp : Option α → Option α → Bool)
    (items : List (Option α)) : Except HeapError (Option α × List (Option α)) :=
  if items.length = 0 then .error .emptyPop
  else
    let item := getI items 0
    let last_item := items.getLast?.getD none
    let rest := items.dropLast
    if 0 < rest.length then .ok (item, pushDown cmp (rest.set 0 last_item) 0)
    else .ok (item, rest)

/-- `Heap.peek()` (`heap.py` lines 54-57): raise on an empty heap, else
return `items[0]` without touching the list. -/
def peek {α : Type} (items : List (Option α)) : Except HeapError (Option α) :=
  if items.length = 0 then .error .emptyPeek
  else .ok (getI items 0)

/-- The `while parent_index >= 0` loop of `Heap.insert` (`heap.py` lines
65-72). Python's floor division gives `parent_index = (0 - 1) // 2 = -1`
exactly when `item_index = 0`, so the loop guard is `item_index ≠ 0`;
for `item_index ≥ 1` the parent index is `(item_index - 1) / 2 ≥ 0`. -/
def insertLoop {α : Type} (cmp : Option α → Option α → Bool)
    (items : List (Option α)) (item : Option α) (item_index : Nat) : List (Option α) :=
  if item_index = 0 then items
  else
    if cmp (getI items ((item_index - 1) / 2)) item then items
    else
      insertLoop cmp
        ((items.set item_index (getI items ((item_index - 1) / 2))).set
          ((item_index - 1) / 2) item)
        item ((item_index - 1) / 2)
termination_by item_index
decreasing_by omega

/-- `Heap.insert(item)` (`heap.py` lines 59-72): append the item, then
sift it up from `item_index = size - 1`. -/
def insert {α : Type} (cmp : Option α → Option α → Bool)
    (items : List (Option α)) (item : Option α) : List (Option α) :=
  insertLoop cmp (items ++ [item]) item ((items ++ [item]).length - 1)

/-- `Heap.is_empty` (`heap.py` lines 74-76). -/
def is_empty {α : Type} (items : List (Option α)) : Bool :=
  items.length == 0

/-- `Heap.size` (`heap.py` lines 78-80). -/
def size {α : Type} (items : List (Option α)) : Nat :=
  items.length

/-- `Heap.__init__(items, ...)` (`heap.py` lines 19-29) restricted to the
list state: start from `[]`; when the initial sequence is truthy (i.e.
non-empty) copy it in and heapify it. The comparator selection is
modelled by the `cmp` argument (`optLE` for `HeapType.MIN`, `optGE` for
`HeapType.MAX`, or any custom predicate). -/
def mkHeap {α : Type} (cmp : Option α → Option α → Bool)
    (items : List (Option α)) : List (Option α) :=
  if items.isEmpty then [] else heapify cmp items

/-- `operator.le` on `Int`, the `HeapType.MIN` comparator, extended to
Python's `None` by ordering `None` first. The extension is never exercised
by a heap whose elements are all integers (Python would raise `TypeError`
on `1 <= None`); ordering `None` first makes the extension a total
preorder, which is also the "custom comparator over a type that includes
`None`" used to exhibit the `child is None` sentinel conflation. -/
def optLE (a b : Option Int) : Bool :=
  match a, b with
  | none, _ => true
  | some _, none => false
  | some x, some y => decide (x ≤ y)

/-- `operator.ge` on `Int`, the `HeapType.MAX` comparator, extended to
Python's `None` (ordered first) in the same unexercised way as `optLE`. -/
def optGE (a b : Option Int) : Bool :=
  match a, b with
  | none, _ => true
  | some _, none => false
  | some x, some y => decide (y ≤ x)

/-- Comparator on key-tagged values comparing only the key (first
component), used to observe which of two key-tied children `_push_down`
swaps. -/
def keyLE (a b : Option (Int × Int)) : Bool :=
  match a, b with
  | none, _ => true
  | some _, none => false
  | some x, some y => decide (x.1 ≤ y.1)

/-- The heap invariant, exactly as the specification states it: for every
index `i` whose child `2*i+1` (resp. `2*i+2`) exists,
`less_or_equal(items[i], items[child])` holds. -/
def heapInvariant {α : Type} (cmp : Option α → Option α → Bool)
    (items : List (Option α)) : Prop :=
  ∀ i j, (j = 2 * i + 1 ∨ j = 2 * i + 2) → j < items.length →
    cmp (getI items i) (getI items j) = true

/-- Every parent at index `≥ k` is ordered below each of its existing
children; `heapFrom cmp items 0` is the heap invariant. Bottom-up heapify
extends this region toward the root. -/
def heapFrom {α : Type} (cmp : Option α → Option α → Bool)
    (items : List (Option α)) (k : Nat) : Prop :=
  ∀ i j, k ≤ i → (j = 2 * i + 1 ∨ j = 2 * i + 2) → j < items.length →
    cmp (getI items i) (getI items j) = true

/-- The comparator is total (hence reflexive): a total preorder together
with `TransB`. -/
def TotalB {α : Type} (cmp : Option α → Option α → Bool) : Prop :=
  ∀ a b, cmp a b = true ∨ cmp b a = true

/-- The comparator is transitive. -/
def TransB {α : Type} (cmp : Option α → Option α → Bool) : Prop :=
  ∀ a b c, cmp a b = true → cmp b c = true → cmp a c = true

/-- No stored element is Python's `None` (so the `child is None` sentinel
test in `_push_down` can only mean "no left child"). -/
def SomeElems {α : Type} (items : List (Option α)) : Prop :=
  ∀ x ∈ items, x.isSome = true

/-- Membership of index `j` in the implicit binary subtree rooted at
index `r` (reachability by child steps `j ↦ 2*j+1` and `j ↦ 2*j+2`). -/
inductive InSubtree : Nat → Nat → Prop where
  | refl (r : Nat) : InSubtree r r
  | left {r j : Nat} : InSubtree r j → InSubtree r (2 * j + 1)
  | right {r j : Nat} : InSubtree r j → InSubtree r (2 * j + 2)

/-- One public mutating call on a heap. -/
inductive HOp (α : Type) : Type where
  | insert (x : Option α) : HOp α
  | pop : HOp α
  | heapify : HOp α

/-- Run one public call on the heap's list. A failed `pop` (empty heap)
raises before mutating anything, so the list is unchanged. -/
def runOp {α : Type} (cmp : Option α → Option α → Bool)
    (items : List (Option α)) : HOp α → List (Option α)
  | .insert x => insert cmp items x
  | .pop =>
    match pop cmp items with
    | .ok (_, rest) => rest
    | .error _ => items
  | .heapify => heapify cmp items

/-- Run a finite sequence of public calls. -/
def runOps {α : Type} (cmp : Option α → Option α → Bool)
    (items : List (Option α)) : List (HOp α) → List (Option α)
  | [] => items
  | op :: ops => runOps cmp (runOp cmp items op) ops

/-- Number of `insert` calls in a call sequence. -/
def numInserts {α : Type} : List (HOp α) → Nat
  | [] => 0
  | .insert _ :: ops => numInserts ops + 1
  | _ :: ops => numInserts ops

/-- Number of successful `pop` calls (those executed on a non-empty heap)
in a run of a call sequence. -/
def succPops {α : Type} (cmp : Option α → Option α → Bool)
    (items : List (Option α)) : List (HOp α) → Nat
  | [] => 0
  | .pop :: ops =>
    (if items.length = 0 then 0 else 1) + succPops cmp (runOp cmp items .pop) ops
  | op :: ops => succPops cmp (runOp cmp items op) ops

/-- Pop repeatedly until the heap is empty, collecting the returned roots.
Each successful pop removes exactly one element, so `items.length` rounds
suffice; the error branch is only reached once the heap is empty. -/
def drainFuel {α : Type} (cmp : Option α → Option α → Bool) :
    Nat → List (Option α) → List (Option α)
  | 0, _ => []
  | fuel + 1, items =>
    match pop cmp items with
    | .error _ => []
    | .ok (x, rest) => x :: drainFuel cmp fuel rest

/-- Pop repeatedly until the heap is empty, collecting the returned roots. -/
def drain {α : Type} (cmp : Option α → Option α → Bool)
    (items : List (Option α)) : List (Option α) :=
  drainFuel cmp items.length items

end Heap

namespace Heap

section BasicLemmas

variable {α : Type} {β : Type}

theorem getI_eq_getElem? (items : List (Option α)) (i : Nat) :
    getI items i = items[i]?.getD none :=
  List.getD_eq_getElem?_getD items i none

theorem getI_of_lt {items : List (Option α)} {i : Nat} (h : i < items.length) :
    getI items i = items[i] := by
  rw [getI_eq_getElem?, List.getElem?_eq_getElem h, Option.getD_some]

theorem getI_set_self {items : List (Option α)} {i : Nat} (v : Option α)
    (h : i < items.length) : getI (items.set i v) i = v := by
  rw [getI_eq_getElem?, List.getElem?_set_self h, Option.getD_some]

theorem getI_set_ne {items : List (Option α)} {i j : Nat} (v : Option α)
    (h : i ≠ j) : getI (items.set i v) j = getI items j := by
  rw [getI_eq_getElem?, getI_eq_getElem?, List.getElem?_set_ne h]

theorem getI_mem {items : List (Option α)} {i : Nat} (h : i < items.length) :
    getI items i ∈ items := by
  rw [getI_of_lt h]
  exact List.getElem_mem h

theorem getI_append_left {items : List (Option α)} {i : Nat}
    (tail : List (Option α)) (h : i < items.length) :
    getI (items ++ tail) i = getI items i := by
  rw [getI_eq_getElem?, getI_eq_getElem?, List.getElem?_append]
  simp [h]

theorem getI_concat_length (items : List (Option α)) (x : Option α) :
    getI (items ++ [x]) items.length = x := by
  rw [getI_eq_getElem?, List.getElem?_concat_length, Option.getD_some]

theorem getI_dropLast {items : List (Option α)} {i : Nat}
    (h : i < items.length - 1) : getI items.dropLast i = getI items i := by
  rw [getI_eq_getElem?, getI_eq_getElem?, List.dropLast_eq_take, List.getElem?_take,
    if_pos h]

theorem getLast_getD_eq_getI (items : List (Option α)) :
    items.getLast?.getD none = getI items (items.length - 1) := by
  rw [getI_eq_getElem?, List.getLast?_eq_getElem?]

/-- Moving the element at index `k` to the front, after writing `x` at `k`,
permutes `x :: t`. -/
theorem cons_set_perm (t : List β) (d : β) :
    ∀ (k : Nat) (x : β), k < t.length → (t.getD k d :: t.set k x).Perm (x :: t) := by
  induction t with
  | nil => intro k x h; simp at h
  | cons y s ih =>
    intro k x h
    match k with
    | 0 => simpa using List.Perm.swap x y s
    | m + 1 =>
      have hm : m < s.length := by simpa using h
      have p1 : (s.getD m d :: y :: s.set m x).Perm (y :: s.getD m d :: s.set m x) :=
        List.Perm.swap _ _ _
      have p2 : (y :: s.getD m d :: s.set m x).Perm (y :: x :: s) :=
        List.Perm.cons y (ih m x hm)
      have p3 : (y :: x :: s).Perm (x :: y :: s) := List.Perm.swap _ _ _
      simpa using (p1.trans p2).trans p3

/-- Swapping the entries at indices `i < j` is a permutation. -/
theorem set_set_perm (d : β) :
    ∀ (l : List β) (i j : Nat), i < j → j < l.length →
      ((l.set i (l.getD j d)).set j (l.getD i d)).Perm l := by
  intro l
  induction l with
  | nil => intro i j hij hj; simp at hj
  | cons y s ih =>
    intro i j hij hj
    match i, j with
    | 0, m + 1 =>
      have hm : m < s.length := by simpa using hj
      simpa using cons_set_perm s d m y hm
    | k + 1, m + 1 =>
      have hm : m < s.length := by simpa using hj
      simpa using List.Perm.cons y (ih k m (by omega) hm)

theorem InSubtree.le {r j : Nat} (h : InSubtree r j) : r ≤ j := by
  induction h with
  | refl => exact Nat.le_refl _
  | left _ ih => omega
  | right _ ih => omega

theorem InSubtree.trans {a b c : Nat} (h₁ : InSubtree a b) (h₂ : InSubtree b c) :
    InSubtree a c := by
  induction h₂ with
  | refl => exact h₁
  | left _ ih => exact InSubtree.left ih
  | right _ ih => exact InSubtree.right ih

theorem InSubtree.cases_root {i q : Nat} (h : InSubtree i q) :
    q = i ∨ InSubtree (2 * i + 1) q ∨ InSubtree (2 * i + 2) q := by
  induction h with
  | refl => exact Or.inl rfl
  | @left j hj ih =>
    rcases ih with h0 | h1 | h2
    · subst h0; exact Or.inr (Or.inl (InSubtree.refl _))
    · exact Or.inr (Or.inl (InSubtree.left h1))
    · exact Or.inr (Or.inr (InSubtree.left h2))
  | @right j hj ih =>
    rcases ih with h0 | h1 | h2
    · subst h0; exact Or.inr (Or.inr (InSubtree.refl _))
    · exact Or.inr (Or.inl (InSubtree.right h1))
    · exact Or.inr (Or.inr (InSubtree.right h2))

theorem InSubtree.eq_or_ge {r q : Nat} (h : InSubtree r q) :
    q = r ∨ 2 * r + 1 ≤ q := by
  rcases h.cases_root with h0 | h1 | h2
  · exact Or.inl h0
  · exact Or.inr h1.le
  · exact Or.inr (by have := h2.le; omega)

theorem not_inSubtree_of_lt {r q : Nat} (h : q < r) : ¬ InSubtree r q :=
  fun hs => absurd hs.le (by omega)

/-- Every index is in the subtree of the root. -/
theorem inSubtree_zero : ∀ q : Nat, InSubtree 0 q := by
  intro q
  induction q using Nat.strong_induction_on with
  | _ q ih =>
    match q with
    | 0 => exact InSubtree.refl 0
    | q + 1 =>
      have hp : InSubtree 0 (q / 2) := ih (q / 2) (by omega)
      rcases Nat.even_or_odd q with he | ho
      · have : q + 1 = 2 * (q / 2) + 1 := by
          rcases he with ⟨m, hm⟩; omega
        rw [this]; exact InSubtree.left hp
      · have : q + 1 = 2 * (q / 2) + 2 := by
          rcases ho with ⟨m, hm⟩; omega
        rw [this]; exact InSubtree.right hp

theorem childIndex_cases (cmp : Option α → Option α → Bool)
    (items : List (Option α)) (i : Nat) :
    childIndex cmp items i = 2 * i + 1 ∨ childIndex cmp items i = 2 * i + 2 := by
  unfold childIndex; split
  · exact Or.inr rfl
  · exact Or.inl rfl

theorem childIndex_lt_length {cmp : Option α → Option α → Bool}
    {items : List (Option α)} {i : Nat} (h : 2 * i + 1 < items.length) :
    childIndex cmp items i < items.length := by
  unfold childIndex; split
  · omega
  · exact h

theorem lt_childIndex (cmp : Option α → Option α → Bool)
    (items : List (Option α)) (i : Nat) : i < childIndex cmp items i := by
  rcases childIndex_cases cmp items i with h | h <;> omega

theorem childIndex_inSubtree (cmp : Option α → Option α → Bool)
    (items : List (Option α)) (i : Nat) : InSubtree i (childIndex cmp items i) := by
  rcases childIndex_cases cmp items i with h | h <;> rw [h]
  · exact InSubtree.left (InSubtree.refl i)
  · exact InSubtree.right (InSubtree.refl i)

theorem childIndex_eq_right {cmp : Option α → Option α → Bool}
    {items : List (Option α)} {i : Nat} (h : childIndex cmp items i = 2 * i + 2) :
    2 * i + 2 < items.length ∧
      cmp (getI items (2 * i + 2)) (getI items (2 * i + 1)) = true := by
  by_contra hcon
  unfold childIndex at h
  rw [if_neg hcon] at h
  omega

theorem childIndex_eq_left {cmp : Option α → Option α → Bool}
    {items : List (Option α)} {i : Nat} (h : childIndex cmp items i = 2 * i + 1)
    (h2 : 2 * i + 2 < items.length) :
    cmp (getI items (2 * i + 2)) (getI items (2 * i + 1)) = false := by
  by_contra hcon
  unfold childIndex at h
  rw [if_pos ⟨h2, by simpa using hcon⟩] at h
  omega

theorem pushDownLoop_eq_rec {cmp : Option α → Option α → Bool}
    {items : List (Option α)} {item : Option α} {i : Nat}
    (h1 : i < items.length) (h2 : 2 * i + 1 < items.length)
    (h3 : (getI items (childIndex cmp items i)).isNone = false)
    (h4 : cmp (getI items (childIndex cmp items i)) item = true) :
    pushDownLoop cmp items item i =
      pushDownLoop cmp
        ((items.set i (getI items (childIndex cmp items i))).set
          (childIndex cmp items i) item)
        item (childIndex cmp items i) := by
  rw [pushDownLoop]
  simp [h1, h2, h3, h4]

theorem pushDownLoop_eq_stop {cmp : Option α → Option α → Bool}
    {items : List (Option α)} {item : Option α} {i : Nat}
    (h : ¬ i < items.length ∨ ¬ 2 * i + 1 < items.length ∨
      (getI items (childIndex cmp items i)).isNone = true ∨
      cmp (getI items (childIndex cmp items i)) item = false) :
    pushDownLoop cmp items item i = items := by
  rw [pushDownLoop]
  rcases h with h | h | h | h
  · simp [h]
  · simp [h]
  · by_cases h1 : i < items.length <;> by_cases h2 : 2 * i + 1 < items.length <;>
      simp [h1, h2, h]
  · by_cases h1 : i < items.length <;> by_cases h2 : 2 * i + 1 < items.length <;>
      simp [h1, h2, h]

end BasicLemmas

end Heap

namespace Heap

section PushDownLemmas

variable {α : Type}

theorem getI_swap_at {items : List (Option α)} {i c : Nat} (a b : Option α)
    (hc : c < items.length) : getI ((items.set i a).set c b) c = b :=
  getI_set_self b (by simpa using hc)

theorem getI_swap_left {items : List (Option α)} {i c : Nat} (a b : Option α)
    (hne : c ≠ i) (hi : i < items.length) :
    getI ((items.set i a).set c b) i = a := by
  rw [getI_set_ne b hne, getI_set_self a hi]

theorem getI_swap_other {items : List (Option α)} {i c q : Nat} (a b : Option α)
    (hqi : q ≠ i) (hqc : q ≠ c) :
    getI ((items.set i a).set c b) q = getI items q := by
  rw [getI_set_ne b (fun h => hqc h.symm), getI_set_ne a (fun h => hqi h.symm)]

theorem pushDownLoop_length (cmp : Option α → Option α → Bool)
    (items : List (Option α)) (item : Option α) (i : Nat) :
    (pushDownLoop cmp items item i).length = items.length := by
  induction items, item, i using pushDownLoop.induct cmp with
  | case1 items item i h1 h2 h3 =>
    rw [pushDownLoop_eq_stop (Or.inr (Or.inr (Or.inl h3)))]
  | case2 items item i h1 h2 h3 h4 ih =>
    rw [pushDownLoop_eq_rec h1 h2 (by simp only [Bool.not_eq_true] at h3; exact h3) h4]
    rw [ih]
    simp
  | case3 items item i h1 h2 h3 h4 =>
    rw [pushDownLoop_eq_stop (Or.inr (Or.inr (Or.inr (by simpa using h4))))]
  | case4 items item i h1 h2 =>
    rw [pushDownLoop_eq_stop (Or.inr (Or.inl h2))]
  | case5 items item i h1 =>
    rw [pushDownLoop_eq_stop (Or.inl h1)]

theorem pushDownLoop_perm (cmp : Option α → Option α → Bool)
    (items : List (Option α)) (item : Option α) (i : Nat) :
    getI items i = item → (pushDownLoop cmp items item i).Perm items := by
  induction items, item, i using pushDownLoop.induct cmp with
  | case1 items item i h1 h2 h3 =>
    intro hitem
    rw [pushDownLoop_eq_stop (Or.inr (Or.inr (Or.inl h3)))]
  | case2 items item i h1 h2 h3 h4 ih =>
    intro hitem
    rw [pushDownLoop_eq_rec h1 h2 (by simp only [Bool.not_eq_true] at h3; exact h3) h4]
    have hcn : childIndex cmp items i < items.length := childIndex_lt_length h2
    have hswap :
        ((items.set i (getI items (childIndex cmp items i))).set
          (childIndex cmp items i) item).Perm items := by
      have hbase := set_set_perm none items i (childIndex cmp items i)
        (lt_childIndex cmp items i) hcn
      rw [show items.getD i none = getI items i from rfl, hitem] at hbase
      exact hbase
    have hitem' :
        getI ((items.set i (getI items (childIndex cmp items i))).set
          (childIndex cmp items i) item) (childIndex cmp items i) = item :=
      getI_swap_at _ _ hcn
    exact (ih hitem').trans hswap
  | case3 items item i h1 h2 h3 h4 =>
    intro hitem
    rw [pushDownLoop_eq_stop (Or.inr (Or.inr (Or.inr (by simpa using h4))))]
  | case4 items item i h1 h2 =>
    intro hitem
    rw [pushDownLoop_eq_stop (Or.inr (Or.inl h2))]
  | case5 items item i h1 =>
    intro hitem
    rw [pushDownLoop_eq_stop (Or.inl h1)]

theorem pushDownLoop_getI_outside (cmp : Option α → Option α → Bool)
    (items : List (Option α)) (item : Option α) (i : Nat) :
    ∀ q, ¬ InSubtree i q → getI (pushDownLoop cmp items item i) q = getI items q := by
  induction items, item, i using pushDownLoop.induct cmp with
  | case1 items item i h1 h2 h3 =>
    intro q hq
    rw [pushDownLoop_eq_stop (Or.inr (Or.inr (Or.inl h3)))]
  | case2 items item i h1 h2 h3 h4 ih =>
    intro q hq
    rw [pushDownLoop_eq_rec h1 h2 (by simp only [Bool.not_eq_true] at h3; exact h3) h4]
    have hsubc : InSubtree i (childIndex cmp items i) := childIndex_inSubtree cmp items i
    have hqc : ¬ InSubtree (childIndex cmp items i) q :=
      fun hcq => hq (hsubc.trans hcq)
    have hqi : q ≠ i := fun h => hq (h ▸ InSubtree.refl i)
    have hqc' : q ≠ childIndex cmp items i :=
      fun h => hqc (h ▸ InSubtree.refl _)
    rw [ih q hqc, getI_swap_other _ _ hqi hqc']
  | case3 items item i h1 h2 h3 h4 =>
    intro q hq
    rw [pushDownLoop_eq_stop (Or.inr (Or.inr (Or.inr (by simpa using h4))))]
  | case4 items item i h1 h2 =>
    intro q hq
    rw [pushDownLoop_eq_stop (Or.inr (Or.inl h2))]
  | case5 items item i h1 =>
    intro q hq
    rw [pushDownLoop_eq_stop (Or.inl h1)]

theorem pushDownLoop_source (cmp : Option α → Option α → Bool)
    (items : List (Option α)) (item : Option α) (i : Nat) :
    getI items i = item → ∀ q, InSubtree i q → q < items.length →
      ∃ p, InSubtree i p ∧ p < items.length ∧
        getI (pushDownLoop cmp items item i) q = getI items p := by
  induction items, item, i using pushDownLoop.induct cmp with
  | case1 items item i h1 h2 h3 =>
    intro hitem q hq hqlen
    rw [pushDownLoop_eq_stop (Or.inr (Or.inr (Or.inl h3)))]
    exact ⟨q, hq, hqlen, rfl⟩
  | case2 items item i h1 h2 h3 h4 ih =>
    intro hitem q hq hqlen
    rw [pushDownLoop_eq_rec h1 h2 (by simp only [Bool.not_eq_true] at h3; exact h3) h4]
    have hcn : childIndex cmp items i < items.length := childIndex_lt_length h2
    have hic : i < childIndex cmp items i := lt_childIndex cmp items i
    have hsubc : InSubtree i (childIndex cmp items i) := childIndex_inSubtree cmp items i
    have hlen' :
        ((items.set i (getI items (childIndex cmp items i))).set
          (childIndex cmp items i) item).length = items.length := by simp
    have hitem' :
        getI ((items.set i (getI items (childIndex cmp items i))).set
          (childIndex cmp items i) item) (childIndex cmp items i) = item :=
      getI_swap_at _ _ hcn
    by_cases hqc : InSubtree (childIndex cmp items i) q
    · obtain ⟨p, hpsub, hplen, hpeq⟩ := ih hitem' q hqc (by rw [hlen']; exact hqlen)
      rw [hlen'] at hplen
      by_cases hpc : p = childIndex cmp items i
      · refine ⟨i, InSubtree.refl i, h1, ?_⟩
        rw [hpeq, hpc, hitem', hitem]
      · have hpgt : 2 * childIndex cmp items i + 1 ≤ p := by
          rcases hpsub.eq_or_ge with h | h
          · exact absurd h hpc
          · exact h
        have hpi : p ≠ i := by omega
        refine ⟨p, hsubc.trans hpsub, hplen, ?_⟩
        rw [hpeq, getI_swap_other _ _ hpi hpc]
    · have hout :
          getI (pushDownLoop cmp
            ((items.set i (getI items (childIndex cmp items i))).set
              (childIndex cmp items i) item) item (childIndex cmp items i)) q =
          getI ((items.set i (getI items (childIndex cmp items i))).set
            (childIndex cmp items i) item) q :=
        pushDownLoop_getI_outside cmp _ item _ q hqc
      by_cases hqi : q = i
      · refine ⟨childIndex cmp items i, hsubc, hcn, ?_⟩
        rw [hout, hqi, getI_swap_left _ _ (by omega) h1]
      · have hqc' : q ≠ childIndex cmp items i :=
          fun h => hqc (h ▸ InSubtree.refl _)
        refine ⟨q, hq, hqlen, ?_⟩
        rw [hout, getI_swap_other _ _ hqi hqc']
  | case3 items item i h1 h2 h3 h4 =>
    intro hitem q hq hqlen
    rw [pushDownLoop_eq_stop (Or.inr (Or.inr (Or.inr (by simpa using h4))))]
    exact ⟨q, hq, hqlen, rfl⟩
  | case4 items item i h1 h2 =>
    intro hitem q hq hqlen
    rw [pushDownLoop_eq_stop (Or.inr (Or.inl h2))]
    exact ⟨q, hq, hqlen, rfl⟩
  | case5 items item i h1 =>
    intro hitem q hq hqlen
    rw [pushDownLoop_eq_stop (Or.inl h1)]
    exact ⟨q, hq, hqlen, rfl⟩

/-- In the region where every parent at index `≥ k` is locally ordered,
a subtree root is at most every element of its subtree (by transitivity
along the tree path). -/
theorem heapFrom_dom {cmp : Option α → Option α → Bool}
    (htot : TotalB cmp) (htrans : TransB cmp) {items : List (Option α)} {k : Nat}
    (hh : heapFrom cmp items k) {p q : Nat} (hs : InSubtree p q) :
    k ≤ p → q < items.length → cmp (getI items p) (getI items q) = true := by
  induction hs with
  | refl =>
    intro hk hq
    rcases htot (getI items p) (getI items p) with h | h <;> exact h
  | @left j hj ih =>
    intro hk hq
    have hjlen : j < items.length := by omega
    have hstep := hh j (2 * j + 1) (Nat.le_trans hk hj.le) (Or.inl rfl) hq
    exact htrans _ _ _ (ih hk hjlen) hstep
  | @right j hj ih =>
    intro hk hq
    have hjlen : j < items.length := by omega
    have hstep := hh j (2 * j + 2) (Nat.le_trans hk hj.le) (Or.inr rfl) hq
    exact htrans _ _ _ (ih hk hjlen) hstep

end PushDownLemmas

end Heap

namespace Heap

section PushDownCorrect

variable {α : Type}

theorem TotalB.refl {cmp : Option α → Option α → Bool} (htot : TotalB cmp)
    (a : Option α) : cmp a a = true := by
  rcases htot a a with h | h <;> exact h

theorem not_inSubtree_of_bounds {r q : Nat} (h1 : q ≠ r) (h2 : q < 2 * r + 1) :
    ¬ InSubtree r q :=
  fun hs => by rcases hs.eq_or_ge with h | h <;> omega

/-- The chosen candidate child is at most each existing child of `i`
(under a total comparator): it is the "more extremal" of the children. -/
theorem childIndex_extremal {cmp : Option α → Option α → Bool}
    (htot : TotalB cmp) {items : List (Option α)} {i : Nat} :
    ∀ oc, (oc = 2 * i + 1 ∨ oc = 2 * i + 2) → oc < items.length →
      cmp (getI items (childIndex cmp items i)) (getI items oc) = true := by
  intro oc hoc hoclen
  rcases childIndex_cases cmp items i with hcl | hcr
  · rcases hoc with h | h
    · rw [hcl, h]; exact htot.refl _
    · have hf := childIndex_eq_left hcl (h ▸ hoclen)
      rcases htot (getI items (2 * i + 1)) (getI items (2 * i + 2)) with hh | hh
      · rw [hcl, h]; exact hh
      · rw [hf] at hh; simp at hh
  · have hcond := childIndex_eq_right hcr
    rcases hoc with h | h
    · rw [hcr, h]; exact hcond.2
    · rw [hcr, h]; exact htot.refl _

/-- Main sift-down lemma: if every parent strictly below the start index
is locally ordered, running the `_push_down` loop at `i` extends the
ordered region to include `i` (total transitive comparator, no stored
`None`). -/
theorem pushDownLoop_heapFrom {cmp : Option α → Option α → Bool}
    (htot : TotalB cmp) (htrans : TransB cmp)
    (items : List (Option α)) (item : Option α) (i : Nat) :
    SomeElems items → getI items i = item → heapFrom cmp items (i + 1) →
      heapFrom cmp (pushDownLoop cmp items item i) i := by
  induction items, item, i using pushDownLoop.induct cmp with
  | case1 items item i h1 h2 h3 =>
    intro hsome hitem hfrom
    have hcn : childIndex cmp items i < items.length := childIndex_lt_length h2
    have := hsome _ (getI_mem hcn)
    simp only [Option.isSome_iff_ne_none] at this
    simp only [Option.isNone_iff_eq_none] at h3
    exact absurd h3 this
  | case2 items item i h1 h2 h3 h4 ih =>
    intro hsome hitem hfrom
    rw [pushDownLoop_eq_rec h1 h2 (by simp only [Bool.not_eq_true] at h3; exact h3) h4]
    set c := childIndex cmp items i with hcdef
    set l' := (items.set i (getI items c)).set c item with hldef
    have hcn : c < items.length := by rw [hcdef]; exact childIndex_lt_length h2
    have hic : i < c := by rw [hcdef]; exact lt_childIndex cmp items i
    have hsubc : InSubtree i c := by rw [hcdef]; exact childIndex_inSubtree cmp items i
    have hlen' : l'.length = items.length := by rw [hldef]; simp
    have hitem' : getI l' c = item := by rw [hldef]; exact getI_swap_at _ _ hcn
    have echild : ∀ oc, (oc = 2 * i + 1 ∨ oc = 2 * i + 2) → oc < items.length →
        cmp (getI items c) (getI items oc) = true := by
      rw [hcdef]; exact childIndex_extremal htot
    have rootdom : ∀ p, InSubtree i p → p < items.length →
        cmp (getI items c) (getI items p) = true := by
      intro p hp hplen
      rcases hp.cases_root with h0 | hl | hr
      · rw [h0, hitem]; exact h4
      · have hll : 2 * i + 1 < items.length := by have := hl.le; omega
        exact htrans _ _ _ (echild (2 * i + 1) (Or.inl rfl) hll)
          (heapFrom_dom htot htrans hfrom hl (by omega) hplen)
      · have hrl : 2 * i + 2 < items.length := by have := hr.le; omega
        exact htrans _ _ _ (echild (2 * i + 2) (Or.inr rfl) hrl)
          (heapFrom_dom htot htrans hfrom hr (by omega) hplen)
    have hsome' : SomeElems l' := by
      intro x hx
      rw [hldef] at hx
      rcases List.mem_or_eq_of_mem_set hx with hx1 | hx1
      · rcases List.mem_or_eq_of_mem_set hx1 with hx2 | hx2
        · exact hsome x hx2
        · subst hx2; exact hsome _ (getI_mem hcn)
      · subst hx1; exact hsome _ (hitem ▸ getI_mem h1)
    have hfrom' : heapFrom cmp l' (c + 1) := by
      intro p j hp hj hjlen
      have hjlen' : j < items.length := by rwa [hlen'] at hjlen
      have hji : j ≠ i := by rcases hj with rfl | rfl <;> omega
      have hjc : j ≠ c := by rcases hj with rfl | rfl <;> omega
      rw [hldef, getI_swap_other _ _ (by omega) (by omega),
        getI_swap_other _ _ hji hjc]
      exact hfrom p j (by omega) hj hjlen'
    have main : heapFrom cmp (pushDownLoop cmp l' item c) c := ih hsome' hitem' hfrom'
    have hreslen : (pushDownLoop cmp l' item c).length = items.length := by
      rw [pushDownLoop_length, hlen']
    have hri : getI (pushDownLoop cmp l' item c) i = getI items c := by
      rw [pushDownLoop_getI_outside cmp l' item c i (not_inSubtree_of_bounds (by omega) (by omega)),
        hldef, getI_swap_left _ _ (by omega) h1]
    intro p j hp hj hjlen
    have hjlen' : j < items.length := by rwa [hreslen] at hjlen
    by_cases hpc : c ≤ p
    · exact main p j hpc hj hjlen
    · push_neg at hpc
      have hcchild : c = 2 * i + 1 ∨ c = 2 * i + 2 := by
        rw [hcdef]; exact childIndex_cases cmp items i
      rcases Nat.eq_or_lt_of_le hp with hpi | hpgt
      · -- p = i : compare the landed child value with each child of i
        subst hpi
        rw [hri]
        by_cases hjc : j = c
        · -- child slot c : use the source of the final value at c
          obtain ⟨p0, hp0sub, hp0len, hp0eq⟩ :=
            pushDownLoop_source cmp l' item c hitem' c (InSubtree.refl c)
              (by rw [hlen']; exact hcn)
          rw [hlen'] at hp0len
          by_cases hp0c : p0 = c
          · rw [hjc, hp0eq, hp0c, hitem']; exact h4
          · have hge : 2 * c + 1 ≤ p0 := by
              rcases hp0sub.eq_or_ge with h | h
              · exact absurd h hp0c
              · exact h
            have : getI l' p0 = getI items p0 := by
              rw [hldef]; exact getI_swap_other _ _ (by omega) (by omega)
            rw [hjc, hp0eq, this]
            exact rootdom p0 (hsubc.trans hp0sub) hp0len
        · -- the other child of i is untouched
          have hnotsub : ¬ InSubtree c j := by
            apply not_inSubtree_of_bounds hjc
            rcases hj with rfl | rfl <;> rcases hcchild with hc | hc <;> omega
          rw [pushDownLoop_getI_outside cmp l' item c j hnotsub, hldef,
            getI_swap_other _ _ (by rcases hj with rfl | rfl <;> omega) hjc]
          exact echild j hj hjlen'
      · -- i < p < c : both endpoints untouched
        have hjc : j ≠ c := by
          rcases hj with rfl | rfl <;> rcases hcchild with hc | hc <;> omega
        have hpnotsub : ¬ InSubtree c p := not_inSubtree_of_bounds (by omega) (by omega)
        have hjnotsub : ¬ InSubtree c j := by
          apply not_inSubtree_of_bounds hjc
          rcases hj with rfl | rfl <;> omega
        rw [pushDownLoop_getI_outside cmp l' item c p hpnotsub,
          pushDownLoop_getI_outside cmp l' item c j hjnotsub, hldef,
          getI_swap_other _ _ (by omega) (by omega),
          getI_swap_other _ _ (by rcases hj with rfl | rfl <;> omega) hjc]
        exact hfrom p j (by omega) hj hjlen'
  | case3 items item i h1 h2 h3 h4 =>
    intro hsome hitem hfrom
    rw [pushDownLoop_eq_stop (Or.inr (Or.inr (Or.inr (by simpa using h4))))]
    intro p j hp hj hjlen
    rcases Nat.eq_or_lt_of_le hp with hpi | hpgt
    · subst hpi
      have hitemchild : cmp item (getI items (childIndex cmp items i)) = true := by
        rcases htot (getI items (childIndex cmp items i)) item with h | h
        · exact absurd h h4
        · exact h
      rw [hitem]
      exact htrans _ _ _ hitemchild (childIndex_extremal htot j hj hjlen)
    · exact hfrom p j (by omega) hj hjlen
  | case4 items item i h1 h2 =>
    intro hsome hitem hfrom
    rw [pushDownLoop_eq_stop (Or.inr (Or.inl h2))]
    intro p j hp hj hjlen
    rcases Nat.eq_or_lt_of_le hp with hpi | hpgt
    · rcases hj with rfl | rfl <;> omega
    · exact hfrom p j (by omega) hj hjlen
  | case5 items item i h1 =>
    intro hsome hitem hfrom
    rw [pushDownLoop_eq_stop (Or.inl h1)]
    intro p j hp hj hjlen
    rcases hj with rfl | rfl <;> omega

end PushDownCorrect

end Heap

namespace Heap

section HeapifyLemmas

variable {α : Type}

theorem SomeElems.of_perm {l1 l2 : List (Option α)} (hp : l1.Perm l2)
    (h : SomeElems l1) : SomeElems l2 :=
  fun x hx => h x (hp.mem_iff.mpr hx)

theorem pushDown_length (cmp : Option α → Option α → Bool)
    (items : List (Option α)) (i : Nat) :
    (pushDown cmp items i).length = items.length :=
  pushDownLoop_length cmp items (getI items i) i

theorem pushDown_perm (cmp : Option α → Option α → Bool)
    (items : List (Option α)) (i : Nat) :
    (pushDown cmp items i).Perm items :=
  pushDownLoop_perm cmp items (getI items i) i rfl

theorem pushDown_heapFrom {cmp : Option α → Option α → Bool}
    (htot : TotalB cmp) (htrans : TransB cmp) {items : List (Option α)} {i : Nat}
    (hsome : SomeElems items) (hfrom : heapFrom cmp items (i + 1)) :
    heapFrom cmp (pushDown cmp items i) i :=
  pushDownLoop_heapFrom htot htrans items (getI items i) i hsome rfl hfrom

/-- A region with no child indexes inside the list is trivially ordered. -/
theorem heapFrom_of_no_children {cmp : Option α → Option α → Bool}
    {items : List (Option α)} {k : Nat} (h : items.length ≤ 2 * k + 1) :
    heapFrom cmp items k := by
  intro p j hp hj hjlen
  rcases hj with rfl | rfl <;> omega

theorem heapifyLoop_perm (cmp : Option α → Option α → Bool) :
    ∀ (k : Nat) (items : List (Option α)), (heapifyLoop cmp items k).Perm items := by
  intro k
  induction k with
  | zero => intro items; exact pushDown_perm cmp items 0
  | succ k ih =>
    intro items
    exact (ih (pushDown cmp items (k + 1))).trans (pushDown_perm cmp items (k + 1))

theorem heapifyLoop_heapFrom {cmp : Option α → Option α → Bool}
    (htot : TotalB cmp) (htrans : TransB cmp) :
    ∀ (k : Nat) (items : List (Option α)), SomeElems items →
      heapFrom cmp items (k + 1) → heapFrom cmp (heapifyLoop cmp items k) 0 := by
  intro k
  induction k with
  | zero =>
    intro items hsome hfrom
    exact pushDown_heapFrom htot htrans hsome hfrom
  | succ k ih =>
    intro items hsome hfrom
    exact ih (pushDown cmp items (k + 1))
      (hsome.of_perm (pushDown_perm cmp items (k + 1)).symm)
      (pushDown_heapFrom htot htrans hsome hfrom)

/-- The sift-down starting index covers all internal nodes: every index
strictly above it has no children inside the list. -/
theorem heapifyStart_bound (n : Nat) : n < 2 * (heapifyStart n + 1) + 1 := by
  have h1 : n < 2 ^ (Nat.log2 n + 1) := Nat.lt_log2_self
  have h2 : 0 < 2 ^ Nat.log2 n := Nat.pos_pow_of_pos _ (by omega)
  unfold heapifyStart
  rw [pow_succ] at h1
  omega

theorem heapify_perm (cmp : Option α → Option α → Bool)
    (items : List (Option α)) : (heapify cmp items).Perm items := by
  unfold heapify
  split
  · exact List.Perm.refl items
  · exact heapifyLoop_perm cmp (heapifyStart items.length) items

theorem heapify_length (cmp : Option α → Option α → Bool)
    (items : List (Option α)) : (heapify cmp items).length = items.length :=
  (heapify_perm cmp items).length_eq

theorem heapify_heapFrom {cmp : Option α → Option α → Bool}
    (htot : TotalB cmp) (htrans : TransB cmp) (items : List (Option α))
    (hsome : SomeElems items) : heapFrom cmp (heapify cmp items) 0 := by
  unfold heapify
  split
  · next h =>
    intro p j hp hj hjlen
    rcases h with h | h <;> (rcases hj with rfl | rfl <;> omega)
  · apply heapifyLoop_heapFrom htot htrans _ _ hsome
    apply heapFrom_of_no_children
    have := heapifyStart_bound items.length
    omega

theorem mkHeap_perm (cmp : Option α → Option α → Bool)
    (items : List (Option α)) : (mkHeap cmp items).Perm items := by
  unfold mkHeap
  split
  · next h =>
    rw [List.isEmpty_iff.mp h]
  · exact heapify_perm cmp items

theorem mkHeap_heapFrom {cmp : Option α → Option α → Bool}
    (htot : TotalB cmp) (htrans : TransB cmp) (items : List (Option α))
    (hsome : SomeElems items) : heapFrom cmp (mkHeap cmp items) 0 := by
  unfold mkHeap
  split
  · intro p j hp hj hjlen
    rcases hj with rfl | rfl <;> simp at hjlen
  · exact heapify_heapFrom htot htrans items hsome

end HeapifyLemmas

end Heap

namespace Heap

section PopLemmas

variable {α : Type}

theorem heapFrom_root_min {cmp : Option α → Option α → Bool}
    (htot : TotalB cmp) (htrans : TransB cmp) {items : List (Option α)}
    (hinv : heapFrom cmp items 0) :
    ∀ x ∈ items, cmp (getI items 0) x = true := by
  intro x hx
  obtain ⟨q, hq, hqeq⟩ := List.getElem_of_mem hx
  have hdom := heapFrom_dom htot htrans hinv (inSubtree_zero q) (Nat.le_refl 0) hq
  rwa [getI_of_lt hq, hqeq] at hdom

theorem getLast_cons_dropLast_perm {items : List (Option α)}
    (h : items.length ≠ 0) :
    (items.getLast?.getD none :: items.dropLast).Perm items := by
  have hne : items ≠ [] := fun h0 => h (by rw [h0]; rfl)
  rw [List.getLast?_eq_getLast items hne, Option.getD_some]
  have hsplit := List.dropLast_append_getLast hne
  conv_rhs => rw [← hsplit]
  exact (List.perm_append_singleton _ _).symm

theorem pop_empty (cmp : Option α → Option α → Bool) :
    pop cmp ([] : List (Option α)) = Except.error HeapError.emptyPop := rfl

/-- Popping a non-empty heap returns the root, keeps all other elements,
and restores the heap invariant. -/
theorem pop_spec {cmp : Option α → Option α → Bool}
    (htot : TotalB cmp) (htrans : TransB cmp) {items : List (Option α)}
    (hsome : SomeElems items) (hinv : heapFrom cmp items 0)
    (hne : items.length ≠ 0) :
    ∃ rest, pop cmp items = Except.ok (getI items 0, rest) ∧
      (getI items 0 :: rest).Perm items ∧ heapFrom cmp rest 0 ∧ SomeElems rest := by
  unfold pop
  rw [if_neg hne]
  by_cases hlen : 0 < items.dropLast.length
  · rw [if_pos hlen]
    have hlen1 : items.dropLast.length = items.length - 1 := List.length_dropLast items
    have hlast_mem : items.getLast?.getD none ∈ items := by
      rw [getLast_getD_eq_getI]
      exact getI_mem (by omega)
    have hsome_pre : SomeElems (items.dropLast.set 0 (items.getLast?.getD none)) := by
      intro x hx
      rcases List.mem_or_eq_of_mem_set hx with hx1 | hx1
      · exact hsome x ((items.dropLast_sublist).subset hx1)
      · subst hx1; exact hsome _ hlast_mem
    have hfrom_pre :
        heapFrom cmp (items.dropLast.set 0 (items.getLast?.getD none)) 1 := by
      intro p j hp hj hjlen
      have hjlen' : j < items.dropLast.length := by simpa using hjlen
      have hplt : p < j := by rcases hj with rfl | rfl <;> omega
      rw [getI_set_ne _ (by omega), getI_set_ne _ (by omega),
        getI_dropLast (by omega), getI_dropLast (by omega)]
      exact hinv p j (Nat.zero_le p) hj (by omega)
    refine ⟨_, rfl, ?_, ?_, ?_⟩
    · have hp1 :
          (getI items 0 ::
            pushDown cmp (items.dropLast.set 0 (items.getLast?.getD none)) 0).Perm
          (getI items 0 :: items.dropLast.set 0 (items.getLast?.getD none)) :=
        List.Perm.cons _ (pushDown_perm cmp _ 0)
      have hp2 :
          (items.dropLast.getD 0 none ::
            items.dropLast.set 0 (items.getLast?.getD none)).Perm
          (items.getLast?.getD none :: items.dropLast) :=
        cons_set_perm items.dropLast none 0 _ hlen
      have hgd : items.dropLast.getD 0 none = getI items 0 :=
        getI_dropLast (by omega)
      rw [hgd] at hp2
      exact (hp1.trans hp2).trans (getLast_cons_dropLast_perm hne)
    · exact pushDown_heapFrom htot htrans hsome_pre hfrom_pre
    · exact hsome_pre.of_perm (pushDown_perm cmp _ 0).symm
  · rw [if_neg hlen]
    have hd0 : items.dropLast.length = 0 := by omega
    have hlen1 : items.length = 1 := by
      have := List.length_dropLast items
      omega
    obtain ⟨a, ha⟩ := List.length_eq_one.mp hlen1
    subst ha
    refine ⟨_, rfl, ?_, ?_, ?_⟩
    · simp [getI]
    · intro p j hp hj hjlen
      simp at hjlen
    · intro x hx
      simp at hx

end PopLemmas

end Heap

namespace Heap

section InsertLemmas

variable {α : Type}

theorem insertLoop_eq_stop {cmp : Option α → Option α → Bool}
    {items : List (Option α)} {item : Option α} {item_index : Nat}
    (h : item_index = 0 ∨ cmp (getI items ((item_index - 1) / 2)) item = true) :
    insertLoop cmp items item item_index = items := by
  rw [insertLoop]
  rcases h with h | h
  · simp [h]
  · by_cases h0 : item_index = 0 <;> simp [h0, h]

theorem insertLoop_eq_rec {cmp : Option α → Option α → Bool}
    {items : List (Option α)} {item : Option α} {item_index : Nat}
    (h0 : item_index ≠ 0)
    (hc : cmp (getI items ((item_index - 1) / 2)) item = false) :
    insertLoop cmp items item item_index =
      insertLoop cmp
        ((items.set item_index (getI items ((item_index - 1) / 2))).set
          ((item_index - 1) / 2) item)
        item ((item_index - 1) / 2) := by
  rw [insertLoop]
  simp [h0, hc]

/-- Main sift-up lemma. The hypotheses say: `item` sits at `idx`; every
parent/child pair is ordered except possibly the pair leading into `idx`;
and (when `idx` has a parent) the parent of `idx` is already at most the
children of `idx`. The loop then restores the full heap invariant by a
permutation. -/
theorem insertLoop_spec {cmp : Option α → Option α → Bool}
    (htot : TotalB cmp) (htrans : TransB cmp)
    (items : List (Option α)) (item : Option α) (idx : Nat) :
    idx < items.length →
    getI items idx = item →
    (∀ p j, (j = 2 * p + 1 ∨ j = 2 * p + 2) → j < items.length →
      ¬(idx ≠ 0 ∧ j = idx) → cmp (getI items p) (getI items j) = true) →
    (∀ j, (j = 2 * idx + 1 ∨ j = 2 * idx + 2) → j < items.length → idx ≠ 0 →
      cmp (getI items ((idx - 1) / 2)) (getI items j) = true) →
    heapFrom cmp (insertLoop cmp items item idx) 0 ∧
      (insertLoop cmp items item idx).Perm items := by
  induction items, item, idx using insertLoop.induct cmp with
  | case1 items item =>
    intro hlen hitem hexc hgrand
    rw [insertLoop_eq_stop (Or.inl rfl)]
    refine ⟨?_, List.Perm.refl items⟩
    intro p j hp hj hjlen
    exact hexc p j hj hjlen (by simp)
  | case2 items item idx h0 hc =>
    intro hlen hitem hexc hgrand
    rw [insertLoop_eq_stop (Or.inr hc)]
    refine ⟨?_, List.Perm.refl items⟩
    intro p j hp hj hjlen
    by_cases hjidx : j = idx
    · have hpeq : p = (idx - 1) / 2 := by subst hjidx; omega
      rw [hpeq, hjidx, hitem]
      exact hc
    · exact hexc p j hj hjlen (fun hcon => hjidx hcon.2)
  | case3 items item idx h0 hc ih =>
    intro hlen hitem hexc hgrand
    have hcf : cmp (getI items ((idx - 1) / 2)) item = false := by
      simp only [Bool.not_eq_true] at hc
      exact hc
    rw [insertLoop_eq_rec h0 hcf]
    have hplt : (idx - 1) / 2 < idx := by omega
    have hplen : (idx - 1) / 2 < items.length := by omega
    have hitem_parent : cmp item (getI items ((idx - 1) / 2)) = true := by
      rcases htot (getI items ((idx - 1) / 2)) item with h | h
      · rw [h] at hcf; simp at hcf
      · exact h
    have hidxchild : idx = 2 * ((idx - 1) / 2) + 1 ∨ idx = 2 * ((idx - 1) / 2) + 2 := by
      omega
    have hlen' :
        ((items.set idx (getI items ((idx - 1) / 2))).set ((idx - 1) / 2) item).length =
          items.length := by simp
    have hitem' :
        getI ((items.set idx (getI items ((idx - 1) / 2))).set ((idx - 1) / 2) item)
          ((idx - 1) / 2) = item :=
      getI_swap_at _ _ hplen
    have hl'idx :
        getI ((items.set idx (getI items ((idx - 1) / 2))).set ((idx - 1) / 2) item)
          idx = getI items ((idx - 1) / 2) :=
      getI_swap_left _ _ (by omega) hlen
    have hexc' : ∀ p j, (j = 2 * p + 1 ∨ j = 2 * p + 2) →
        j < ((items.set idx (getI items ((idx - 1) / 2))).set ((idx - 1) / 2) item).length →
        ¬((idx - 1) / 2 ≠ 0 ∧ j = (idx - 1) / 2) →
        cmp (getI ((items.set idx (getI items ((idx - 1) / 2))).set ((idx - 1) / 2) item) p)
          (getI ((items.set idx (getI items ((idx - 1) / 2))).set ((idx - 1) / 2) item) j) =
          true := by
      intro p j hj hjlen hne'
      have hjlen' : j < items.length := by rwa [hlen'] at hjlen
      by_cases hjidx : j = idx
      · have hpeq : p = (idx - 1) / 2 := by subst hjidx; omega
        rw [hpeq, hjidx, hitem', hl'idx]
        exact hitem_parent
      · by_cases hjp : j = (idx - 1) / 2
        · exact absurd ⟨by omega, hjp⟩ hne'
        · rw [getI_swap_other _ _ hjidx hjp]
          by_cases hppar : p = (idx - 1) / 2
          · rw [hppar, hitem']
            exact htrans _ _ _ hitem_parent
              (hexc ((idx - 1) / 2) j (hppar ▸ hj) hjlen' (fun hcon => hjidx hcon.2))
          · by_cases hpidx : p = idx
            · rw [hpidx, hl'idx]
              exact hgrand j (hpidx ▸ hj) hjlen' h0
            · rw [getI_swap_other _ _ hpidx hppar]
              exact hexc p j hj hjlen' (fun hcon => hjidx hcon.2)
    have hgrand' : ∀ j, (j = 2 * ((idx - 1) / 2) + 1 ∨ j = 2 * ((idx - 1) / 2) + 2) →
        j < ((items.set idx (getI items ((idx - 1) / 2))).set ((idx - 1) / 2) item).length →
        (idx - 1) / 2 ≠ 0 →
        cmp
          (getI ((items.set idx (getI items ((idx - 1) / 2))).set ((idx - 1) / 2) item)
            (((idx - 1) / 2 - 1) / 2))
          (getI ((items.set idx (getI items ((idx - 1) / 2))).set ((idx - 1) / 2) item) j) =
          true := by
      intro j hj hjlen hp0
      have hjlen' : j < items.length := by rwa [hlen'] at hjlen
      have hgp_lt : ((idx - 1) / 2 - 1) / 2 < (idx - 1) / 2 := by omega
      have hgp_eq :
          getI ((items.set idx (getI items ((idx - 1) / 2))).set ((idx - 1) / 2) item)
            (((idx - 1) / 2 - 1) / 2) = getI items (((idx - 1) / 2 - 1) / 2) :=
        getI_swap_other _ _ (by omega) (by omega)
      have hgp_pair :
          cmp (getI items (((idx - 1) / 2 - 1) / 2)) (getI items ((idx - 1) / 2)) = true :=
        hexc (((idx - 1) / 2 - 1) / 2) ((idx - 1) / 2) (by omega) hplen
          (fun hcon => by omega)
      by_cases hjidx : j = idx
      · rw [hgp_eq, hjidx, hl'idx]
        exact hgp_pair
      · have hjp : j ≠ (idx - 1) / 2 := by omega
        rw [hgp_eq, getI_swap_other _ _ hjidx hjp]
        exact htrans _ _ _ hgp_pair
          (hexc ((idx - 1) / 2) j hj hjlen' (fun hcon => hjidx hcon.2))
    have hperm' :
        ((items.set idx (getI items ((idx - 1) / 2))).set ((idx - 1) / 2) item).Perm
          items := by
      have hswap := set_set_perm none items ((idx - 1) / 2) idx hplt hlen
      rw [show items.getD idx none = getI items idx from rfl, hitem] at hswap
      have hcomm :
          (items.set idx (getI items ((idx - 1) / 2))).set ((idx - 1) / 2) item =
            (items.set ((idx - 1) / 2) item).set idx (getI items ((idx - 1) / 2)) :=
        List.set_comm _ _ items (by omega)
      rw [hcomm]
      exact hswap
    obtain ⟨hh, hp⟩ := ih (by omega) hitem' hexc' hgrand'
    exact ⟨hh, hp.trans hperm'⟩

/-- `insert` restores the heap invariant and adds exactly the new item. -/
theorem insert_spec {cmp : Option α → Option α → Bool}
    (htot : TotalB cmp) (htrans : TransB cmp) (items : List (Option α))
    (x : Option α) (hinv : heapFrom cmp items 0) :
    heapFrom cmp (insert cmp items x) 0 ∧ (insert cmp items x).Perm (x :: items) := by
  unfold insert
  have hlen : (items ++ [x]).length - 1 = items.length := by simp
  rw [hlen]
  have hexc : ∀ p j, (j = 2 * p + 1 ∨ j = 2 * p + 2) → j < (items ++ [x]).length →
      ¬(items.length ≠ 0 ∧ j = items.length) →
      cmp (getI (items ++ [x]) p) (getI (items ++ [x]) j) = true := by
    intro p j hj hjlen hne
    have hjlen' : j < items.length + 1 := by simpa using hjlen
    by_cases hjl : j = items.length
    · exact absurd ⟨by omega, hjl⟩ hne
    · have hjlt : j < items.length := by omega
      have hplt : p < items.length := by omega
      rw [getI_append_left _ hplt, getI_append_left _ hjlt]
      exact hinv p j (Nat.zero_le p) hj hjlt
  have hgrand : ∀ j, (j = 2 * items.length + 1 ∨ j = 2 * items.length + 2) →
      j < (items ++ [x]).length → items.length ≠ 0 →
      cmp (getI (items ++ [x]) ((items.length - 1) / 2)) (getI (items ++ [x]) j) =
        true := by
    intro j hj hjlen _
    have : j < items.length + 1 := by simpa using hjlen
    omega
  obtain ⟨h1, h2⟩ := insertLoop_spec htot htrans (items ++ [x]) x items.length
    (by simp) (getI_concat_length items x) hexc hgrand
  exact ⟨h1, h2.trans (List.perm_append_singleton x items)⟩

end InsertLemmas

end Heap

namespace Heap

section DrainLemmas

variable {α : Type}

theorem optLE_total : TotalB optLE := by
  intro a b
  cases a <;> cases b <;> simp [optLE]
  omega

theorem optLE_trans : TransB optLE := by
  intro a b c hab hbc
  cases a <;> cases b <;> cases c <;> simp_all [optLE]
  omega

theorem optGE_total : TotalB optGE := by
  intro a b
  cases a <;> cases b <;> simp [optGE]
  omega

theorem optGE_trans : TransB optGE := by
  intro a b c hab hbc
  cases a <;> cases b <;> cases c <;> simp_all [optGE]
  omega

theorem keyLE_total : TotalB keyLE := by
  intro a b
  cases a <;> cases b <;> simp [keyLE]
  omega

theorem keyLE_trans : TransB keyLE := by
  intro a b c hab hbc
  cases a <;> cases b <;> cases c <;> simp_all [keyLE]
  omega

/-- Draining a valid heap yields its elements in comparator order. -/
theorem drainFuel_spec {cmp : Option α → Option α → Bool}
    (htot : TotalB cmp) (htrans : TransB cmp) :
    ∀ (fuel : Nat) (items : List (Option α)), SomeElems items →
      heapFrom cmp items 0 → items.length ≤ fuel →
      (drainFuel cmp fuel items).Perm items ∧
        List.Sorted (fun a b => cmp a b = true) (drainFuel cmp fuel items) := by
  intro fuel
  induction fuel with
  | zero =>
    intro items _ _ hlen
    have h0 : items = [] := List.length_eq_zero.mp (by omega)
    subst h0
    exact ⟨List.Perm.refl _, List.sorted_nil⟩
  | succ fuel ih =>
    intro items hsome hinv hlen
    by_cases hne : items.length = 0
    · have h0 : items = [] := List.length_eq_zero.mp hne
      subst h0
      exact ⟨List.Perm.refl _, by simp [drainFuel, pop_empty]⟩
    · obtain ⟨rest, hpop, hperm, hrest_inv, hrest_some⟩ :=
        pop_spec htot htrans hsome hinv hne
      have hrestlen : rest.length + 1 = items.length := by
        have := hperm.length_eq
        simpa using this
      have hdf : drainFuel cmp (fuel + 1) items =
          getI items 0 :: drainFuel cmp fuel rest := by
        simp [drainFuel, hpop]
      obtain ⟨ihp, ihs⟩ := ih rest hrest_some hrest_inv (by omega)
      constructor
      · rw [hdf]
        exact (List.Perm.cons _ ihp).trans hperm
      · rw [hdf, List.sorted_cons]
        refine ⟨?_, ihs⟩
        intro b hb
        have hbrest : b ∈ rest := ihp.mem_iff.mp hb
        have hbitems : b ∈ items :=
          hperm.mem_iff.mp (List.mem_cons_of_mem _ hbrest)
        exact heapFrom_root_min htot htrans hinv b hbitems

theorem drain_spec {cmp : Option α → Option α → Bool}
    (htot : TotalB cmp) (htrans : TransB cmp) {items : List (Option α)}
    (hsome : SomeElems items) (hinv : heapFrom cmp items 0) :
    (drain cmp items).Perm items ∧
      List.Sorted (fun a b => cmp a b = true) (drain cmp items) :=
  drainFuel_spec htot htrans items.length items hsome hinv (Nat.le_refl _)

theorem someElems_map (S : List Int) : SomeElems (S.map some) := by
  intro x hx
  obtain ⟨a, _, rfl⟩ := List.mem_map.mp hx
  rfl

/-- Draining the `HeapType.MIN` heap built from `S` sorts `S` ascending. -/
theorem drain_min_eq (S : List Int) :
    drain optLE (mkHeap optLE (S.map some)) =
      (List.insertionSort (fun a b : Int => a ≤ b) S).map some := by
  have hsome : SomeElems (S.map some) := someElems_map S
  have hinv := mkHeap_heapFrom optLE_total optLE_trans (S.map some) hsome
  have hsome' : SomeElems (mkHeap optLE (S.map some)) :=
    hsome.of_perm (mkHeap_perm optLE (S.map some)).symm
  obtain ⟨hperm, hsorted⟩ := drain_spec optLE_total optLE_trans hsome' hinv
  have hp1 : (drain optLE (mkHeap optLE (S.map some))).Perm (S.map some) :=
    hperm.trans (mkHeap_perm optLE (S.map some))
  have hp2 : ((List.insertionSort (fun a b : Int => a ≤ b) S).map some).Perm
      (S.map some) :=
    (List.perm_insertionSort (fun a b : Int => a ≤ b) S).map some
  have hs2 : List.Sorted (fun a b => optLE a b = true)
      ((List.insertionSort (fun a b : Int => a ≤ b) S).map some) := by
    apply List.Pairwise.map
    · intro a b hab
      simpa [optLE] using hab
    · exact List.sorted_insertionSort (fun a b : Int => a ≤ b) S
  haveI : IsAntisymm (Option Int) (fun a b => optLE a b = true) := by
    constructor
    intro a b hab hba
    cases a <;> cases b <;> simp_all [optLE]
    omega
  exact List.eq_of_perm_of_sorted (hp1.trans hp2.symm) hsorted hs2

/-- Draining the `HeapType.MAX` heap built from `S` sorts `S` descending. -/
theorem drain_max_eq (S : List Int) :
    drain optGE (mkHeap optGE (S.map some)) =
      (List.insertionSort (fun a b : Int => b ≤ a) S).map some := by
  have hsome : SomeElems (S.map some) := someElems_map S
  have hinv := mkHeap_heapFrom optGE_total optGE_trans (S.map some) hsome
  have hsome' : SomeElems (mkHeap optGE (S.map some)) :=
    hsome.of_perm (mkHeap_perm optGE (S.map some)).symm
  obtain ⟨hperm, hsorted⟩ := drain_spec optGE_total optGE_trans hsome' hinv
  have hp1 : (drain optGE (mkHeap optGE (S.map some))).Perm (S.map some) :=
    hperm.trans (mkHeap_perm optGE (S.map some))
  haveI htotal : IsTotal Int (fun a b : Int => b ≤ a) := ⟨fun a b => le_total b a⟩
  haveI htrans : IsTrans Int (fun a b : Int => b ≤ a) :=
    ⟨fun a b c h1 h2 => le_trans h2 h1⟩
  have hp2 : ((List.insertionSort (fun a b : Int => b ≤ a) S).map some).Perm
      (S.map some) :=
    (List.perm_insertionSort (fun a b : Int => b ≤ a) S).map some
  have hs2 : List.Sorted (fun a b => optGE a b = true)
      ((List.insertionSort (fun a b : Int => b ≤ a) S).map some) := by
    apply List.Pairwise.map
    · intro a b hab
      simpa [optGE] using hab
    · exact List.sorted_insertionSort (fun a b : Int => b ≤ a) S
  haveI : IsAntisymm (Option Int) (fun a b => optGE a b = true) := by
    constructor
    intro a b hab hba
    cases a <;> cases b <;> simp_all [optGE]
    omega
  exact List.eq_of_perm_of_sorted (hp1.trans hp2.symm) hsorted hs2

end DrainLemmas

end Heap

namespace Heap

section TraceLemmas

variable {α : Type}

theorem heapInvariant_iff_heapFrom {cmp : Option α → Option α → Bool}
    {items : List (Option α)} : heapInvariant cmp items ↔ heapFrom cmp items 0 := by
  constructor
  · intro h i j _ hj hjlen
    exact h i j hj hjlen
  · intro h i j hj hjlen
    exact h i j (Nat.zero_le i) hj hjlen

theorem insertLoop_perm (cmp : Option α → Option α → Bool) :
    ∀ (items : List (Option α)) (item : Option α) (idx : Nat),
      idx < items.length → getI items idx = item →
      (insertLoop cmp items item idx).Perm items := by
  intro items item idx
  induction items, item, idx using insertLoop.induct cmp with
  | case1 items item =>
    intro _ _
    rw [insertLoop_eq_stop (Or.inl rfl)]
  | case2 items item idx h0 hc =>
    intro _ _
    rw [insertLoop_eq_stop (Or.inr hc)]
  | case3 items item idx h0 hc ih =>
    intro hlen hitem
    have hcf : cmp (getI items ((idx - 1) / 2)) item = false := by
      simp only [Bool.not_eq_true] at hc
      exact hc
    rw [insertLoop_eq_rec h0 hcf]
    have hplt : (idx - 1) / 2 < idx := by omega
    have hperm' :
        ((items.set idx (getI items ((idx - 1) / 2))).set ((idx - 1) / 2) item).Perm
          items := by
      have hswap := set_set_perm none items ((idx - 1) / 2) idx hplt hlen
      rw [show items.getD idx none = getI items idx from rfl, hitem] at hswap
      have hcomm :
          (items.set idx (getI items ((idx - 1) / 2))).set ((idx - 1) / 2) item =
            (items.set ((idx - 1) / 2) item).set idx (getI items ((idx - 1) / 2)) :=
        List.set_comm _ _ items (by omega)
      rw [hcomm]
      exact hswap
    have hitem' :
        getI ((items.set idx (getI items ((idx - 1) / 2))).set ((idx - 1) / 2) item)
          ((idx - 1) / 2) = item :=
      getI_swap_at _ _ (by omega)
    exact (ih (by simp only [List.length_set]; omega) hitem').trans hperm'

theorem insert_perm (cmp : Option α → Option α → Bool)
    (items : List (Option α)) (x : Option α) :
    (insert cmp items x).Perm (x :: items) := by
  unfold insert
  have hlen : (items ++ [x]).length - 1 = items.length := by simp
  rw [hlen]
  exact (insertLoop_perm cmp (items ++ [x]) x items.length (by simp)
    (getI_concat_length items x)).trans (List.perm_append_singleton x items)

theorem insert_length (cmp : Option α → Option α → Bool)
    (items : List (Option α)) (x : Option α) :
    (insert cmp items x).length = items.length + 1 := by
  have := (insert_perm cmp items x).length_eq
  simpa using this

theorem pop_ok_of_ne {cmp : Option α → Option α → Bool}
    {items : List (Option α)} (hne : items.length ≠ 0) :
    ∃ x rest, pop cmp items = Except.ok (x, rest) ∧
      rest.length + 1 = items.length := by
  unfold pop
  rw [if_neg hne]
  by_cases hlen : 0 < items.dropLast.length
  · rw [if_pos hlen]
    refine ⟨_, _, rfl, ?_⟩
    rw [pushDown_length]
    simp only [List.length_set, List.length_dropLast]
    omega
  · rw [if_neg hlen]
    refine ⟨_, _, rfl, ?_⟩
    have := List.length_dropLast items
    omega

theorem mkHeap_length (cmp : Option α → Option α → Bool)
    (items : List (Option α)) : (mkHeap cmp items).length = items.length :=
  (mkHeap_perm cmp items).length_eq

/-- One public call keeps the heap invariant and the no-`None` condition. -/
theorem runOp_preserves {cmp : Option α → Option α → Bool}
    (htot : TotalB cmp) (htrans : TransB cmp) {s : List (Option α)}
    (hsome : SomeElems s) (hinv : heapFrom cmp s 0) (op : HOp α)
    (hop : ∀ x, op = HOp.insert x → x.isSome = true) :
    SomeElems (runOp cmp s op) ∧ heapFrom cmp (runOp cmp s op) 0 := by
  cases op with
  | insert x =>
    obtain ⟨hinv', hperm⟩ := insert_spec htot htrans s x hinv
    have hsome' : SomeElems (x :: s) := by
      intro y hy
      rcases List.mem_cons.mp hy with rfl | hy
      · exact hop y rfl
      · exact hsome y hy
    exact ⟨hsome'.of_perm hperm.symm, hinv'⟩
  | pop =>
    by_cases hne : s.length = 0
    · have h0 : s = [] := List.length_eq_zero.mp hne
      subst h0
      exact ⟨hsome, hinv⟩
    · obtain ⟨rest, hpop, hperm, hrest_inv, hrest_some⟩ :=
        pop_spec htot htrans hsome hinv hne
      have hrun : runOp cmp s HOp.pop = rest := by
        simp [runOp, hpop]
      rw [hrun]
      exact ⟨hrest_some, hrest_inv⟩
  | heapify =>
    exact ⟨hsome.of_perm (heapify_perm cmp s).symm,
      heapify_heapFrom htot htrans s hsome⟩

theorem runOps_preserves {cmp : Option α → Option α → Bool}
    (htot : TotalB cmp) (htrans : TransB cmp) :
    ∀ (ops : List (HOp α)) (s : List (Option α)), SomeElems s →
      heapFrom cmp s 0 →
      (∀ op ∈ ops, ∀ x, op = HOp.insert x → x.isSome = true) →
      SomeElems (runOps cmp s ops) ∧ heapFrom cmp (runOps cmp s ops) 0 := by
  intro ops
  induction ops with
  | nil =>
    intro s hsome hinv _
    exact ⟨hsome, hinv⟩
  | cons op ops ih =>
    intro s hsome hinv hops
    obtain ⟨hsome', hinv'⟩ := runOp_preserves htot htrans hsome hinv op
      (hops op (List.mem_cons_self op ops))
    exact ih (runOp cmp s op) hsome' hinv'
      (fun o ho x hx => hops o (List.mem_cons_of_mem op ho) x hx)

/-- Size accounting along a run: final size plus the number of successful
pops equals the initial size plus the number of inserts. -/
theorem runOps_size (cmp : Option α → Option α → Bool) :
    ∀ (ops : List (HOp α)) (s : List (Option α)),
      size (runOps cmp s ops) + succPops cmp s ops = size s + numInserts ops := by
  intro ops
  induction ops with
  | nil => intro s; simp [runOps, succPops, numInserts, size]
  | cons op ops ih =>
    intro s
    cases op with
    | insert x =>
      have hs : size (runOp cmp s (HOp.insert x)) = size s + 1 := by
        simp only [runOp, size]
        exact insert_length cmp s x
      have := ih (runOp cmp s (HOp.insert x))
      simp only [runOps, succPops, numInserts]
      omega
    | pop =>
      by_cases hne : s.length = 0
      · have h0 : s = [] := List.length_eq_zero.mp hne
        subst h0
        have hrun : runOp cmp ([] : List (Option α)) HOp.pop = [] := rfl
        have := ih (runOp cmp ([] : List (Option α)) HOp.pop)
        simp only [runOps, succPops, numInserts, hrun] at this ⊢
        simp [size] at this ⊢
        omega
      · obtain ⟨x, rest, hpop, hlen⟩ := @pop_ok_of_ne α cmp s hne
        have hrun : runOp cmp s HOp.pop = rest := by
          simp [runOp, hpop]
        have := ih (runOp cmp s HOp.pop)
        simp only [runOps, succPops, numInserts, if_neg hne] at this ⊢
        rw [hrun] at this ⊢
        simp only [size] at this ⊢
        omega
    | heapify =>
      have hs : size (runOp cmp s HOp.heapify) = size s := by
        simp only [runOp, size]
        exact heapify_length cmp s
      have := ih (runOp cmp s HOp.heapify)
      simp only [runOps, succPops, numInserts]
      omega

theorem is_empty_iff_size {items : List (Option α)} :
    is_empty items = true ↔ size items = 0 := by
  simp [is_empty, size]

end TraceLemmas

end Heap

namespace Heap

section Claims

/-- C1: for every finite sequence `S`, building a heap from `S` in MIN
(resp. MAX) mode and popping repeatedly until empty yields exactly `S`
sorted ascending (resp. descending), duplicates preserved by
multiplicity. -/
theorem claim_C1_pop_ordering (S : List Int) :
    drain optLE (mkHeap optLE (S.map some)) =
      (List.insertionSort (fun a b : Int => a ≤ b) S).map some ∧
    drain optGE (mkHeap optGE (S.map some)) =
      (List.insertionSort (fun a b : Int => b ≤ a) S).map some :=
  ⟨drain_min_eq S, drain_max_eq S⟩

/-- C2 fails as stated: `optLE` is a total preorder on `Option Int`, yet
immediately after construction from `[some 1, none]` (an empty operation
sequence) the heap invariant does not hold, because `_push_down` mistakes
the stored `None` for a missing child and stops. -/
theorem claim_C2_counterexample :
    ¬ heapInvariant optLE
      (runOps optLE (mkHeap optLE [(some 1 : Option Int), none]) []) := by
  intro h
  have heval : runOps optLE (mkHeap optLE [(some 1 : Option Int), none]) [] =
      [some 1, none] := by
    simp [runOps, mkHeap, heapify, heapifyLoop, heapifyStart, pushDown,
      pushDownLoop, childIndex, getI, optLE, Nat.log2]
  rw [heval] at h
  have := h 0 1 (Or.inl rfl) (by simp)
  simp [getI, optLE] at this

/-- C2 amended: for every heap whose ordering predicate is a total
preorder and which never stores Python's `None` (the value `_push_down`
uses as its no-child sentinel), after any finite sequence of insert, pop
and heapify calls starting from construction the internal sequence
satisfies the heap invariant. -/
theorem claim_C2_amended {α : Type} {cmp : Option α → Option α → Bool}
    (htot : TotalB cmp) (htrans : TransB cmp) (init : List (Option α))
    (hsome : SomeElems init) (ops : List (HOp α))
    (hops : ∀ op ∈ ops, ∀ x, op = HOp.insert x → x.isSome = true) :
    heapInvariant cmp (runOps cmp (mkHeap cmp init) ops) := by
  rw [heapInvariant_iff_heapFrom]
  exact (runOps_preserves htot htrans ops (mkHeap cmp init)
    (hsome.of_perm (mkHeap_perm cmp init).symm)
    (mkHeap_heapFrom htot htrans init hsome) hops).2

/-- C2 witness: a concrete run (construct from two items, insert, pop)
ends with the heap invariant holding. -/
theorem claim_C2_witness :
    heapInvariant optLE
      (runOps optLE (mkHeap optLE [(some 3 : Option Int), some 1])
        [HOp.insert (some 2), HOp.pop]) := by
  apply claim_C2_amended optLE_total optLE_trans
  · intro x hx
    simp at hx
    rcases hx with rfl | rfl <;> rfl
  · intro op hop x hx
    simp at hop
    rcases hop with rfl | rfl
    · injection hx with h
      subst h
      rfl
    · cases hx

/-- C3: pop and peek on an empty heap signal the empty-container error
(modelled as an `Except.error`, never a sentinel value), and a failed pop
leaves the heap unchanged with size 0. -/
theorem claim_C3_error_contract (α : Type) (cmp : Option α → Option α → Bool) :
    pop cmp ([] : List (Option α)) = Except.error HeapError.emptyPop ∧
    peek ([] : List (Option α)) = Except.error HeapError.emptyPeek ∧
    runOp cmp ([] : List (Option α)) HOp.pop = [] ∧
    size (runOp cmp ([] : List (Option α)) HOp.pop) = 0 :=
  ⟨rfl, rfl, rfl, rfl⟩

/-- C4 fails as stated: the claim quantifies over every finite sequence
under the configured ordering, but with the `None`-first total preorder
`optLE` and input `[some 1, none]`, heapify leaves the sequence unchanged
(the `child is None` sentinel break, see C9) and the element at index 0
is not extremal: `optLE (some 1) none = false`. -/
theorem claim_C4_counterexample :
    ¬ optLE (getI (heapify optLE [(some 1 : Option Int), none]) 0)
        (getI (heapify optLE [(some 1 : Option Int), none]) 1) = true := by
  have heval : heapify optLE [(some 1 : Option Int), none] = [some 1, none] := by
    simp [heapify, heapifyLoop, heapifyStart, pushDown, pushDownLoop,
      childIndex, getI, optLE, Nat.log2]
  rw [heval]
  simp [getI, optLE]

/-- C4 amended: for every finite sequence (including empty and singleton)
whose stored elements do not include `None` (the sift-down child
sentinel), under any total transitive comparator, after heapify the
element at index 0 is extremal and recursively every subtree root is
extremal within its subtree; the four edge cases from the specification
also hold. -/
theorem claim_C4_heapify_correct :
    (∀ (α : Type) (cmp : Option α → Option α → Bool), TotalB cmp → TransB cmp →
      ∀ items : List (Option α), SomeElems items →
        (∀ q, q < (heapify cmp items).length →
          cmp (getI (heapify cmp items) 0) (getI (heapify cmp items) q) = true) ∧
        (∀ r q, InSubtree r q → q < (heapify cmp items).length →
          cmp (getI (heapify cmp items) r) (getI (heapify cmp items) q) = true)) ∧
    heapify optLE ([] : List (Option Int)) = [] ∧
    heapify optLE [(some 1 : Option Int)] = [some 1] ∧
    heapify optLE [(some 1 : Option Int), some 0] = [some 0, some 1] ∧
    heapify optGE [(some 0 : Option Int), some 1] = [some 1, some 0] := by
  refine ⟨?_, rfl, rfl, ?_, ?_⟩
  · intro α cmp htot htrans items hsome
    have hinv := heapify_heapFrom htot htrans items hsome
    refine ⟨fun q hq => ?_, fun r q hs hq => ?_⟩
    · exact heapFrom_dom htot htrans hinv (inSubtree_zero q) (Nat.le_refl 0) hq
    · exact heapFrom_dom htot htrans hinv hs (Nat.zero_le r) hq
  · simp [heapify, heapifyLoop, heapifyStart, pushDown, pushDownLoop,
      childIndex, getI, optLE, Nat.log2]
  · simp [heapify, heapifyLoop, heapifyStart, pushDown, pushDownLoop,
      childIndex, getI, optGE, Nat.log2]

/-- C4 witness: the generic part of the amended C4 applied to the
concrete MIN heap built from `[some 2, some 1]`. -/
theorem claim_C4_witness :
    TotalB optLE ∧ TransB optLE ∧
    optLE (getI (heapify optLE [(some 2 : Option Int), some 1]) 0)
      (getI (heapify optLE [(some 2 : Option Int), some 1]) 1) = true :=
  ⟨optLE_total, optLE_trans,
    (claim_C4_heapify_correct.1 Int optLE optLE_total optLE_trans
      [(some 2 : Option Int), some 1]
      (by intro x hx; simp at hx; rcases hx with rfl | rfl <;> rfl)).1 1
      (by rw [heapify_length]; decide)⟩

/-- C5 fails as stated: for a sequence of length 2 the last internal
(non-leaf) node is index `(2 - 2) / 2 = 0`, but heapify starts its
sift-down loop from `2 ^ floor(log2 2) - 1 = 1`, the first index of the
deepest level, which here is a leaf. -/
theorem claim_C5_counterexample : heapifyStart 2 ≠ (2 - 2) / 2 := by
  norm_num [heapifyStart, Nat.log2]

/-- C5 amended: for a sequence of length `n ≥ 2`, heapify computes
`2 ^ floor(log2 n) - 1` — the first index of the deepest tree level, which
is at least the last internal node index `(n - 2) / 2` and less than `n` —
and performs sift-down on every index from that index down to 0 inclusive
in decreasing order; sift-down is the identity on the extra indexes (those
with no left child). -/
theorem claim_C5_amended (n : Nat) (hn : 2 ≤ n) :
    heapifyStart n = 2 ^ Nat.log2 n - 1 ∧
    (n - 2) / 2 ≤ heapifyStart n ∧
    heapifyStart n < n ∧
    (∀ (α : Type) (cmp : Option α → Option α → Bool) (items : List (Option α)),
      items.length = n → heapify cmp items = heapifyLoop cmp items (heapifyStart n)) ∧
    (∀ (α : Type) (cmp : Option α → Option α → Bool) (items : List (Option α))
      (i : Nat), items.length ≤ 2 * i + 1 → pushDown cmp items i = items) := by
  refine ⟨rfl, ?_, ?_, ?_, ?_⟩
  · have h1 : n < 2 ^ (Nat.log2 n + 1) := Nat.lt_log2_self
    have h2 : 0 < 2 ^ Nat.log2 n := Nat.pos_pow_of_pos _ (by omega)
    rw [pow_succ] at h1
    unfold heapifyStart
    omega
  · have h2 : 2 ^ Nat.log2 n ≤ n := Nat.log2_self_le (by omega)
    unfold heapifyStart
    omega
  · intro α cmp items hlen
    unfold heapify
    rw [hlen, if_neg (by omega)]
  · intro α cmp items i hle
    unfold pushDown
    exact pushDownLoop_eq_stop (Or.inr (Or.inl (by omega)))

/-- C5 witness: the amended bounds at length 5 (start index 3, last
internal node 1). -/
theorem claim_C5_witness :
    (2 ≤ 5 ∧ (5 - 2) / 2 ≤ heapifyStart 5) ∧ heapifyStart 5 < 5 :=
  ⟨⟨by decide, (claim_C5_amended 5 (by decide)).2.1⟩,
    (claim_C5_amended 5 (by decide)).2.2.1⟩

/-- C6: insert always succeeds (it is a total function on any heap
state); it appends the item and sifts it up by parent swaps; afterwards
the heap invariant holds and the stored multiset is the old multiset plus
the inserted item. -/
theorem claim_C6_insert {α : Type} {cmp : Option α → Option α → Bool}
    (htot : TotalB cmp) (htrans : TransB cmp) (items : List (Option α))
    (x : Option α) (hinv : heapInvariant cmp items) :
    heapInvariant cmp (insert cmp items x) ∧
      (insert cmp items x).Perm (x :: items) := by
  rw [heapInvariant_iff_heapFrom] at hinv ⊢
  exact insert_spec htot htrans items x hinv

/-- C6 witness: inserting `some 0` into the singleton MIN heap
`[some 1]`. -/
theorem claim_C6_witness :
    heapInvariant optLE (insert optLE [(some 1 : Option Int)] (some 0)) ∧
      (insert optLE [(some 1 : Option Int)] (some 0)).Perm [some 0, some 1] :=
  claim_C6_insert optLE_total optLE_trans [(some 1 : Option Int)] (some 0)
    (by intro i j hj hjlen; simp only [List.length_cons, List.length_nil] at hjlen; omega)

/-- C7: peek on a non-empty heap returns the element at the root (index
0); being a pure function of the list that returns only that element, it
mutates neither the sequence nor the size nor the comparator. -/
theorem claim_C7_peek {α : Type} (items : List (Option α)) (hne : items ≠ []) :
    peek items = Except.ok (getI items 0) := by
  unfold peek
  rw [if_neg (fun h => hne (List.length_eq_zero.mp h))]

/-- C7 witness: peek on the singleton heap `[some 5]`. -/
theorem claim_C7_witness :
    ([(some 5 : Option Int)] ≠ []) ∧
      peek [(some 5 : Option Int)] = Except.ok (some 5) :=
  ⟨by simp, claim_C7_peek [(some 5 : Option Int)] (by simp)⟩

/-- C8: at every point of every run, size equals the construction count
plus the number of inserts minus the number of successful pops (stated
additively over Nat), and is_empty holds iff size is 0; both are pure
queries of the list state. -/
theorem claim_C8_size_accounting {α : Type} (cmp : Option α → Option α → Bool)
    (init : List (Option α)) (ops : List (HOp α)) :
    size (runOps cmp (mkHeap cmp init) ops) + succPops cmp (mkHeap cmp init) ops =
      init.length + numInserts ops ∧
    (∀ items : List (Option α), is_empty items = true ↔ size items = 0) := by
  constructor
  · have hrun := runOps_size cmp ops (mkHeap cmp init)
    have hm : size (mkHeap cmp init) = init.length := mkHeap_length cmp init
    omega
  · intro items
    exact is_empty_iff_size

/-- C9: whenever the candidate child selected by `_push_down` holds the
stored value `None`, the loop stops at that node as if it were a leaf;
consequently, with the `None`-first total preorder `optLE`, heapify on
`[some 1, none]` leaves the sequence unchanged and the heap invariant
fails on the result. -/
theorem claim_C9_none_child {α : Type} (cmp : Option α → Option α → Bool)
    (items : List (Option α)) (item : Option α) (i : Nat)
    (hnone : getI items (childIndex cmp items i) = none) :
    pushDownLoop cmp items item i = items ∧
    heapify optLE [(some 1 : Option Int), none] = [some 1, none] ∧
    ¬ heapInvariant optLE (heapify optLE [(some 1 : Option Int), none]) := by
  have heval : heapify optLE [(some 1 : Option Int), none] = [some 1, none] := by
    simp [heapify, heapifyLoop, heapifyStart, pushDown, pushDownLoop,
      childIndex, getI, optLE, Nat.log2]
  refine ⟨?_, heval, ?_⟩
  · exact pushDownLoop_eq_stop (Or.inr (Or.inr (Or.inl (by rw [hnone]; rfl))))
  · intro h
    rw [heval] at h
    have := h 0 1 (Or.inl rfl) (by simp)
    simp [getI, optLE] at this

/-- C9 witness: at the root of `[some 1, none]` the selected child (the
left child, holding `None`) makes the loop stop immediately. -/
theorem claim_C9_witness :
    getI [(some 1 : Option Int), none]
        (childIndex optLE [(some 1 : Option Int), none] 0) = none ∧
      pushDownLoop optLE [(some 1 : Option Int), none] (some 1) 0 =
        [some 1, none] :=
  ⟨by decide,
    (claim_C9_none_child optLE [(some 1 : Option Int), none] (some 1) 0
      (by decide)).1⟩

/-- C10: when a node has two children, the right child is the swap
candidate iff the comparator holds from the right child's value to the
left child's value — so on ties the right child is compared and, when a
swap happens, swapped; observed concretely on key-tied tagged values. -/
theorem claim_C10_right_tiebreak {α : Type} (cmp : Option α → Option α → Bool)
    (items : List (Option α)) (item : Option α) (i : Nat)
    (h2 : 2 * i + 2 < items.length) :
    (childIndex cmp items i = 2 * i + 2 ↔
      cmp (getI items (2 * i + 2)) (getI items (2 * i + 1)) = true) ∧
    (cmp (getI items (2 * i + 2)) (getI items (2 * i + 1)) = true →
      (getI items (2 * i + 2)).isNone = false →
      cmp (getI items (2 * i + 2)) item = true →
      pushDownLoop cmp items item i =
        pushDownLoop cmp
          ((items.set i (getI items (2 * i + 2))).set (2 * i + 2) item) item
          (2 * i + 2)) ∧
    pushDown keyLE [some ((5 : Int), (0 : Int)), some (1, 1), some (1, 2)] 0 =
      [some (1, 2), some (1, 1), some (5, 0)] := by
  have hiff : childIndex cmp items i = 2 * i + 2 ↔
      cmp (getI items (2 * i + 2)) (getI items (2 * i + 1)) = true := by
    constructor
    · intro h
      exact (childIndex_eq_right h).2
    · intro h
      unfold childIndex
      rw [if_pos ⟨h2, h⟩]
  refine ⟨hiff, ?_, ?_⟩
  · intro hcmp hnn hswap
    have hc : childIndex cmp items i = 2 * i + 2 := hiff.mpr hcmp
    have hrec := @pushDownLoop_eq_rec α cmp items item i (by omega) (by omega)
      (by rw [hc]; exact hnn) (by rw [hc]; exact hswap)
    rw [hc] at hrec
    exact hrec
  · simp [pushDown, pushDownLoop, childIndex, getI, keyLE]

/-- C10 witness: the right-or-left characterisation at the concrete
key-tied list (both children share key 1, the right child is selected). -/
theorem claim_C10_witness :
    (2 * 0 + 2 <
      ([some ((5 : Int), (0 : Int)), some (1, 1), some (1, 2)]).length) ∧
    (childIndex keyLE [some ((5 : Int), (0 : Int)), some (1, 1), some (1, 2)] 0 =
        2 * 0 + 2 ↔
      keyLE (getI [some ((5 : Int), (0 : Int)), some (1, 1), some (1, 2)] (2 * 0 + 2))
          (getI [some ((5 : Int), (0 : Int)), some (1, 1), some (1, 2)] (2 * 0 + 1)) =
        true) :=
  ⟨by decide,
    (claim_C10_right_tiebreak keyLE
      [some ((5 : Int), (0 : Int)), some (1, 1), some (1, 2)] (some (5, 0)) 0
      (by decide)).1⟩

end Claims

end Heap
